import Mathlib

/-!
Verification of the local data-transformation logic of the
`RAG-Based AI Chatbot_Workflow.ipynb` notebook: the entity flattener
(`extract_entities`), the document compiler (`compile_documents`), the
field normalizer (`expected_keys`), and the JSON persistence round-trip.

Python dictionaries with string keys and string values are embedded as
insertion-ordered association lists (`Doc`); `d[k] = v` overwrites the
value at the key's existing position or appends a fresh entry, exactly
as a Python dict does.
-/

set_option autoImplicit false

namespace AzureRag

/-- A Python dict with string keys and string values, as an
insertion-ordered association list.  Dicts built by the pipeline never
repeat a key. -/
abbrev Doc := List (String × String)

/-- `lookupD d k` is Python `d.get(k)`: the value at the first entry
whose key is `k`. -/
def lookupD : Doc → String → Option String
  | [], _ => none
  | (k', v) :: rest, k => if k' = k then some v else lookupD rest k

/-- `memD k d` is Python `k in d`. -/
def memD (k : String) (d : Doc) : Bool :=
  (lookupD d k).isSome

/-- `insertD d k v` is Python `d[k] = v`: overwrite the value at the
key's existing position, or append a fresh entry at the end. -/
def insertD : Doc → String → String → Doc
  | [], k, v => [(k, v)]
  | (k', v') :: rest, k, v =>
    if k' = k then (k, v) :: rest else (k', v') :: insertD rest k v

/-- `updateD d e` is Python `d.update(e)`: assign each of `e`'s pairs
into `d`, in order. -/
def updateD (d e : Doc) : Doc :=
  e.foldl (fun acc p => insertD acc p.1 p.2) d

/-- One `{'text': ...}` span inside a label entry's `value` list. -/
structure ValueSpan where
  text : String

/-- One entry of a record's `labels` list: `{'label': ..., 'value': [...]}`. -/
structure LabelEntry where
  label : String
  value : List ValueSpan

/-- One parsed label file.  `document.get('labels', [])` reads the
`labels` field, a missing key being modelled by the empty list. -/
structure LabelRecord where
  labels : List LabelEntry

/-- `extract_entities` from the notebook: for each record, for each
entry of its `labels` list, emit the single-pair dict
`{label: ' '.join(text of each value span)}`, appending to one output
list. -/
def extract_entities (data : List LabelRecord) : List Doc :=
  data.foldl
    (fun entities document =>
      document.labels.foldl
        (fun entities item =>
          entities ++
            [[(item.label, String.intercalate " " (item.value.map ValueSpan.text))]])
        entities)
    []

/-- `any(key in item for key in title_keys)`: does the entity carry a
title key? -/
def isTitle (title_keys : List String) (item : Doc) : Bool :=
  title_keys.any (fun key => memD key item)

/-- The loop of `compile_documents`: scan the entities with the current
accumulator `current_doc`; a title entity emits the accumulator (when
non-empty) and seeds a new one, any other entity is merged in via
`dict.update`; the final accumulator is emitted when non-empty. -/
def compileAux (title_keys : List String) (current_doc : Doc) : List Doc → List Doc
  | [] => if current_doc.isEmpty then [] else [current_doc]
  | item :: rest =>
    if isTitle title_keys item then
      (if current_doc.isEmpty then [] else [current_doc]) ++
        compileAux title_keys item rest
    else
      compileAux title_keys (updateD current_doc item) rest

/-- The message of the `ValueError` raised on a missing or empty
`title_keys`. -/
def invalidArgumentMsg : String :=
  "title_keys must be provided and cannot be None or empty."

/-- `compile_documents` from the notebook.  `title_keys` is `none` when
the caller passes Python `None`; `if not title_keys` rejects both
`None` and the empty collection with a `ValueError` before any entity
is read. -/
def compile_documents (entities : List Doc) (title_keys : Option (List String)) :
    Except String (List Doc) :=
  match title_keys with
  | none => Except.error invalidArgumentMsg
  | some ts =>
    if ts.isEmpty then Except.error invalidArgumentMsg
    else Except.ok (compileAux ts [] entities)

/-- The per-document body of `expected_keys`: for each expected key in
order, if it is absent, set it to the sentinel `'Null'`. -/
def normalizeDoc (compiled_doc : Doc) (expected_key_list : List String) : Doc :=
  expected_key_list.foldl
    (fun d expected_key =>
      if memD expected_key d then d else insertD d expected_key "Null")
    compiled_doc

/-- `expected_keys` from the notebook: normalize every compiled
document in place and return the list. -/
def expected_keys (compiled_documents : List Doc) (expected_key_list : List String) :
    List Doc :=
  compiled_documents.map (fun compiled_doc => normalizeDoc compiled_doc expected_key_list)

/-! ### Basic lemmas about the dict embedding -/

theorem lookupD_insertD (d : Doc) (k v k₀ : String) :
    lookupD (insertD d k v) k₀ = if k = k₀ then some v else lookupD d k₀ := by
  induction d with
  | nil => simp [insertD, lookupD]
  | cons p rest ih =>
    obtain ⟨k', v'⟩ := p
    simp only [insertD]
    by_cases h1 : k' = k
    · subst h1
      simp only [if_pos rfl, lookupD]
      by_cases h2 : k' = k₀ <;> simp [h2, lookupD]
    · simp only [if_neg h1, lookupD]
      by_cases h2 : k' = k₀
      · subst h2
        have h3 : ¬ k = k' := fun h => h1 h.symm
        simp [h3]
      · simp [h2, ih]

theorem insertD_ne_nil (d : Doc) (k v : String) : insertD d k v ≠ [] := by
  cases d with
  | nil => simp [insertD]
  | cons p rest =>
    obtain ⟨k', v'⟩ := p
    simp only [insertD]
    split <;> simp

theorem foldl_insertD_ne_nil (e : List (String × String)) (d : Doc) (h : d ≠ []) :
    e.foldl (fun acc p => insertD acc p.1 p.2) d ≠ [] := by
  induction e generalizing d with
  | nil => simpa using h
  | cons p rest ih =>
    simp only [List.foldl_cons]
    exact ih (insertD d p.1 p.2) (insertD_ne_nil d p.1 p.2)

theorem updateD_ne_nil_left (d e : Doc) (h : d ≠ []) : updateD d e ≠ [] :=
  foldl_insertD_ne_nil e d h

theorem updateD_ne_nil_right (d e : Doc) (h : e ≠ []) : updateD d e ≠ [] := by
  cases e with
  | nil => exact absurd rfl h
  | cons p rest =>
    simp only [updateD, List.foldl_cons]
    exact foldl_insertD_ne_nil rest (insertD d p.1 p.2) (insertD_ne_nil d p.1 p.2)

theorem memD_insertD (d : Doc) (k v k₀ : String) :
    memD k₀ (insertD d k v) = (if k = k₀ then true else memD k₀ d) := by
  simp only [memD, lookupD_insertD]
  split <;> simp

theorem memD_updateD_of (d e : Doc) (k : String) (h : memD k d = true) :
    memD k (updateD d e) = true := by
  induction e generalizing d with
  | nil => simpa [updateD] using h
  | cons p rest ih =>
    simp only [updateD, List.foldl_cons] at *
    exact ih (insertD d p.1 p.2) (by rw [memD_insertD]; split <;> simp [h])

theorem memD_nil (k : String) : memD k [] = false := rfl

theorem isTitle_ne_nil {ts : List String} {i : Doc} (h : isTitle ts i = true) :
    i ≠ [] := by
  intro hnil
  subst hnil
  simp only [isTitle, List.any_eq_true] at h
  obtain ⟨k, -, hk⟩ := h
  simp [memD, lookupD] at hk

theorem isTitle_updateD {ts : List String} {d : Doc} (e : Doc)
    (h : isTitle ts d = true) : isTitle ts (updateD d e) = true := by
  simp only [isTitle, List.any_eq_true] at h ⊢
  obtain ⟨k, hk, hm⟩ := h
  exact ⟨k, hk, memD_updateD_of d e k hm⟩

theorem isEmpty_false_ne_nil {α : Type} {l : List α} (h : ¬ l.isEmpty = true) :
    l ≠ [] := by
  cases l <;> simp_all

theorem compile_documents_ok (entities : List Doc) (ts : List String) (ds : List Doc)
    (hok : compile_documents entities (some ts) = Except.ok ds) :
    ds = compileAux ts [] entities := by
  simp only [compile_documents] at hok
  split at hok
  · exact Except.noConfusion hok
  · injection hok with h
    exact h.symm

/-! ### The claims -/

/-- C1: `compile_documents` fails with the `InvalidArgument` `ValueError`
exactly when `title_keys` is absent (`None`) or empty — before producing any
output, never silently returning an empty list — and with any non-empty
`title_keys` it raises no such error and returns a result. -/
theorem compile_documents_titleKeys_guard (entities : List Doc)
    (tk : Option (List String)) :
    ((tk = none ∨ tk = some []) →
      compile_documents entities tk = Except.error invalidArgumentMsg)
    ∧ (∀ ts, tk = some ts → ts ≠ [] →
        ∃ ds, compile_documents entities tk = Except.ok ds) := by
  constructor
  · rintro (rfl | rfl) <;> rfl
  · rintro ts rfl hne
    refine ⟨compileAux ts [] entities, ?_⟩
    simp only [compile_documents]
    rw [if_neg (by simpa using hne)]

/-- Witness for C1 at concrete inputs. -/
theorem compile_documents_titleKeys_guard_witness :
    compile_documents [[("a", "1")]] none = Except.error invalidArgumentMsg
    ∧ compile_documents [[("a", "1")]] (some []) = Except.error invalidArgumentMsg
    ∧ ∃ ds, compile_documents [[("a", "1")]] (some ["t"]) = Except.ok ds :=
  ⟨(compile_documents_titleKeys_guard [[("a", "1")]] none).1 (Or.inl rfl),
   (compile_documents_titleKeys_guard [[("a", "1")]] (some [])).1 (Or.inr rfl),
   (compile_documents_titleKeys_guard [[("a", "1")]] (some ["t"])).2 ["t"] rfl
     (by simp)⟩

/-- C7: on the documented four-entity stream with
`title_keys = {"document_title"}`, `compile_documents` returns exactly the two
expected documents. -/
theorem compile_documents_example :
    compile_documents
      [[("document_title", "Doc1")], [("author", "A1")],
       [("document_title", "Doc2")], [("author", "A2")]]
      (some ["document_title"])
      = Except.ok [[("document_title", "Doc1"), ("author", "A1")],
                   [("document_title", "Doc2"), ("author", "A2")]] := rfl

theorem compileAux_ne_nil (ts : List String) (cur : Doc) (entities : List Doc) :
    ∀ d ∈ compileAux ts cur entities, d ≠ [] := by
  induction entities generalizing cur with
  | nil =>
    intro d hd
    simp only [compileAux] at hd
    split at hd
    · simp at hd
    · rename_i hne
      simp only [List.mem_singleton] at hd
      subst hd
      exact isEmpty_false_ne_nil hne
  | cons item rest ih =>
    intro d hd
    simp only [compileAux] at hd
    split at hd
    · rcases List.mem_append.mp hd with h | h
      · split at h
        · simp at h
        · rename_i hne
          simp only [List.mem_singleton] at h
          subst h
          exact isEmpty_false_ne_nil hne
      · exact ih item d h
    · exact ih (updateD cur item) d hd

/-- C9: every document in the output of `compile_documents` is a non-empty
mapping; the empty dict never appears, since every emission of the
accumulator is guarded by `if current_doc`. -/
theorem compile_documents_no_empty_doc (entities : List Doc) (ts : List String)
    (ds : List Doc) (hok : compile_documents entities (some ts) = Except.ok ds) :
    ∀ d ∈ ds, d ≠ [] := by
  rw [compile_documents_ok entities ts ds hok]
  exact compileAux_ne_nil ts [] entities

/-- Witness for C9 at a concrete input. -/
theorem compile_documents_no_empty_doc_witness : ([("t", "x")] : Doc) ≠ [] :=
  compile_documents_no_empty_doc [[("t", "x")]] ["t"] [[("t", "x")]] rfl
    [("t", "x")] (by simp)

theorem compileAux_all_title (ts : List String) (cur : Doc) (entities : List Doc)
    (hcur : isTitle ts cur = true) :
    ∀ d ∈ compileAux ts cur entities, isTitle ts d = true := by
  induction entities generalizing cur with
  | nil =>
    intro d hd
    simp only [compileAux] at hd
    split at hd
    · simp at hd
    · simp only [List.mem_singleton] at hd
      subst hd
      exact hcur
  | cons item rest ih =>
    intro d hd
    simp only [compileAux] at hd
    split at hd
    · rename_i htitle
      rcases List.mem_append.mp hd with h | h
      · split at h
        · simp at h
        · simp only [List.mem_singleton] at h
          subst h
          exact hcur
      · exact ih item htitle d h
    · exact ih (updateD cur item) (isTitle_updateD item hcur) d hd

theorem compileAux_drop_one_title (ts : List String) (cur : Doc)
    (entities : List Doc) :
    ∀ d ∈ (compileAux ts cur entities).drop 1, isTitle ts d = true := by
  induction entities generalizing cur with
  | nil =>
    intro d hd
    simp only [compileAux] at hd
    split at hd <;> simp at hd
  | cons item rest ih =>
    intro d hd
    simp only [compileAux] at hd
    split at hd
    · rename_i htitle
      split at hd
      · simp only [List.nil_append] at hd
        exact compileAux_all_title ts item rest htitle d (List.mem_of_mem_drop hd)
      · simp only [List.cons_append, List.nil_append, List.drop_succ_cons,
          List.drop_zero] at hd
        exact compileAux_all_title ts item rest htitle d hd
    · exact ih (updateD cur item) d hd

/-- C10: in the output of `compile_documents`, every document except possibly
the first carries at least one title key; only a run of non-title entities
before the first title key can produce a (leading) document without one. -/
theorem compile_documents_tail_has_title (entities : List Doc) (ts : List String)
    (ds : List Doc) (hok : compile_documents entities (some ts) = Except.ok ds) :
    ∀ d ∈ ds.drop 1, isTitle ts d = true := by
  rw [compile_documents_ok entities ts ds hok]
  exact compileAux_drop_one_title ts [] entities

/-- Witness for C10 at a concrete input. -/
theorem compile_documents_tail_has_title_witness :
    isTitle ["t"] [("t", "x")] = true :=
  compile_documents_tail_has_title [[("a", "1")], [("t", "x")]] ["t"]
    [[("a", "1")], [("t", "x")]] rfl [("t", "x")] (by simp)

theorem compileAux_length_of_ne_nil (ts : List String) (cur : Doc)
    (entities : List Doc) (hcur : cur ≠ []) :
    (compileAux ts cur entities).length
      = entities.countP (fun i => isTitle ts i) + 1 := by
  induction entities generalizing cur with
  | nil =>
    simp only [compileAux]
    rw [if_neg (by simpa using hcur)]
    simp
  | cons item rest ih =>
    simp only [compileAux]
    by_cases h : isTitle ts item = true
    · rw [if_pos h, if_neg (by simpa using hcur)]
      have hrec := ih item (isTitle_ne_nil h)
      have hc : List.countP (fun i => isTitle ts i) (item :: rest)
          = List.countP (fun i => isTitle ts i) rest + 1 := by
        simp [List.countP_cons, h]
      rw [hc]
      simp only [List.length_append, List.length_cons, List.length_nil, hrec]
      omega
    · have hc : List.countP (fun i => isTitle ts i) (item :: rest)
          = List.countP (fun i => isTitle ts i) rest := by
        simp [List.countP_cons, h]
      rw [if_neg h, ih (updateD cur item) (updateD_ne_nil_left cur item hcur), hc]

theorem compileAux_nil_length (ts : List String) (entities : List Doc)
    (hne : ∀ i ∈ entities, i ≠ []) :
    (compileAux ts [] entities).length
      = entities.countP (fun i => isTitle ts i)
        + (if (entities.takeWhile fun i => !isTitle ts i).isEmpty then 0 else 1) := by
  cases entities with
  | nil => rfl
  | cons item rest =>
    simp only [compileAux]
    by_cases h : isTitle ts item = true
    · rw [if_pos h]
      show (compileAux ts item rest).length = _
      rw [compileAux_length_of_ne_nil ts item rest (isTitle_ne_nil h)]
      have hc : List.countP (fun i => isTitle ts i) (item :: rest)
          = List.countP (fun i => isTitle ts i) rest + 1 := by
        simp [List.countP_cons, h]
      rw [hc, List.takeWhile_cons]
      simp [h]
    · rw [if_neg h]
      have hitem : item ≠ [] := hne item (List.mem_cons_self item rest)
      rw [compileAux_length_of_ne_nil ts (updateD [] item) rest
        (updateD_ne_nil_right [] item hitem)]
      have hc : List.countP (fun i => isTitle ts i) (item :: rest)
          = List.countP (fun i => isTitle ts i) rest := by
        simp [List.countP_cons, h]
      rw [hc, List.takeWhile_cons]
      simp [h]

/-- C2: for single-key entities (more generally, non-empty-dict entities) and a
non-empty `title_keys`, the number of compiled documents is the number of
title-key entities, plus one extra leading document exactly when a non-title
entity precedes the first title-key entity; in particular at most one document
without any title-key entity, and zero for the empty stream. -/
theorem compile_documents_count (entities : List Doc) (ts : List String)
    (ds : List Doc) (hne : ∀ i ∈ entities, i ≠ [])
    (hok : compile_documents entities (some ts) = Except.ok ds) :
    ds.length
      = entities.countP (fun i => isTitle ts i)
        + (if (entities.takeWhile fun i => !isTitle ts i).isEmpty then 0 else 1) := by
  rw [compile_documents_ok entities ts ds hok]
  exact compileAux_nil_length ts entities hne

/-- Witness for C2 at a concrete input. -/
theorem compile_documents_count_witness :
    ([[("a", "1")], [("t", "x")]] : List Doc).length
      = ([[("a", "1")], [("t", "x")]] : List Doc).countP (fun i => isTitle ["t"] i)
        + (if (([[("a", "1")], [("t", "x")]] : List Doc).takeWhile
              fun i => !isTitle ["t"] i).isEmpty then 0 else 1) :=
  compile_documents_count [[("a", "1")], [("t", "x")]] ["t"]
    [[("a", "1")], [("t", "x")]] (by decide) rfl

/-- The value of the last entity in `items` that binds the key `k`, if any:
the reference notion of last-write-wins. -/
def lastValue : List Doc → String → Option String
  | [], _ => none
  | i :: is, k =>
    match lastValue is k with
    | some v => some v
    | none => lookupD i k

theorem lookupD_foldl_updateD (items : List Doc) (d : Doc) (k : String)
    (hsingle : ∀ i ∈ items, ∃ k₁ v₁, i = [(k₁, v₁)]) :
    lookupD (items.foldl updateD d) k
      = (match lastValue items k with
         | some v => some v
         | none => lookupD d k) := by
  induction items generalizing d with
  | nil => simp [lastValue]
  | cons i is ih =>
    obtain ⟨k₁, v₁, rfl⟩ := hsingle _ (List.mem_cons_self _ _)
    simp only [List.foldl_cons]
    rw [ih (updateD d [(k₁, v₁)]) (fun j hj => hsingle j (List.mem_cons_of_mem _ hj))]
    have hupd : updateD d [(k₁, v₁)] = insertD d k₁ v₁ := rfl
    rw [hupd, lookupD_insertD]
    simp only [lastValue, lookupD]
    cases h : lastValue is k with
    | some v => simp
    | none => by_cases hk : k₁ = k <;> simp [hk]

theorem compileAux_append_nonTitle (ts : List String) (d : Doc)
    (items rest : List Doc) (hnt : ∀ i ∈ items, isTitle ts i = false) :
    compileAux ts d (items ++ rest) = compileAux ts (items.foldl updateD d) rest := by
  induction items generalizing d with
  | nil => simp
  | cons i is ih =>
    have h := hnt i (List.mem_cons_self _ _)
    simp only [List.cons_append, compileAux]
    rw [if_neg (by simp [h]), List.foldl_cons]
    exact ih (updateD d i) (fun j hj => hnt j (List.mem_cons_of_mem _ hj))

/-- C3: the compile loop consumes a run of non-title single-key entities by
folding Python `dict.update` into the open accumulator, and in the resulting
document the value bound to a key is the value of the last merged entity
carrying that key (last-write-wins, no aggregation), falling back to the
accumulator's own binding when no merged entity carries it. -/
theorem compile_merge_last_write_wins (ts : List String) (d : Doc)
    (items rest : List Doc) (k : String)
    (hsingle : ∀ i ∈ items, ∃ k₁ v₁, i = [(k₁, v₁)])
    (hnt : ∀ i ∈ items, isTitle ts i = false) :
    compileAux ts d (items ++ rest) = compileAux ts (items.foldl updateD d) rest
    ∧ lookupD (items.foldl updateD d) k
        = (match lastValue items k with
           | some v => some v
           | none => lookupD d k) :=
  ⟨compileAux_append_nonTitle ts d items rest hnt,
   lookupD_foldl_updateD items d k hsingle⟩

/-- Witness for C3 at a concrete input: two colliding `author` entities merged
into a document opened by a title entity; the later value wins. -/
theorem compile_merge_last_write_wins_witness :
    compileAux ["t"] [("t", "X")] ([[("a", "1")], [("a", "2")]] ++ [])
      = compileAux ["t"] ([[("a", "1")], [("a", "2")]].foldl updateD [("t", "X")]) []
    ∧ lookupD ([[("a", "1")], [("a", "2")]].foldl updateD [("t", "X")]) "a"
        = (match lastValue [[("a", "1")], [("a", "2")]] "a" with
           | some v => some v
           | none => lookupD [("t", "X")] "a") :=
  compile_merge_last_write_wins ["t"] [("t", "X")] [[("a", "1")], [("a", "2")]]
    [] "a"
    (by
      intro i hi
      simp only [List.mem_cons, List.not_mem_nil, or_false] at hi
      rcases hi with rfl | rfl
      · exact ⟨"a", "1", rfl⟩
      · exact ⟨"a", "2", rfl⟩)
    (by decide)

theorem lookupD_normalizeDoc (d : Doc) (K : List String) (k : String) :
    lookupD (normalizeDoc d K) k
      = (match lookupD d k with
         | some v => some v
         | none => if k ∈ K then some "Null" else none) := by
  induction K generalizing d with
  | nil => cases h : lookupD d k <;> simp [normalizeDoc, h]
  | cons k' K' ih =>
    simp only [normalizeDoc, List.foldl_cons]
    rw [show List.foldl
        (fun d expected_key =>
          if memD expected_key d then d else insertD d expected_key "Null")
        (if memD k' d then d else insertD d k' "Null") K'
        = normalizeDoc (if memD k' d then d else insertD d k' "Null") K' from rfl]
    rw [ih]
    by_cases hm : memD k' d = true
    · rw [if_pos hm]
      cases h : lookupD d k with
      | some v => simp
      | none =>
        have hk : ¬ k = k' := by
          intro hkk
          subst hkk
          rw [memD, h] at hm
          exact Bool.noConfusion hm
        simp [List.mem_cons, hk]
    · rw [if_neg hm, lookupD_insertD]
      by_cases hk : k' = k
      · subst hk
        have h : lookupD d k' = none := by
          rcases h' : lookupD d k' with _ | v
          · rfl
          · rw [memD, h'] at hm
            exact absurd rfl hm
        simp [h]
      · have hk' : ¬ k = k' := fun hkk => hk hkk.symm
        rw [if_neg hk]
        cases h : lookupD d k <;> simp [List.mem_cons, hk']

theorem memD_normalizeDoc (d : Doc) (K : List String) (k : String) (hk : k ∈ K) :
    memD k (normalizeDoc d K) = true := by
  rw [memD, lookupD_normalizeDoc]
  cases h : lookupD d k <;> simp [hk]

theorem normalizeDoc_eq_self (d : Doc) (K : List String)
    (h : ∀ k ∈ K, memD k d = true) : normalizeDoc d K = d := by
  induction K with
  | nil => rfl
  | cons k' K' ih =>
    simp only [normalizeDoc, List.foldl_cons]
    rw [if_pos (h k' (List.mem_cons_self _ _))]
    exact ih (fun k hk => h k (List.mem_cons_of_mem _ hk))

theorem normalizeDoc_idem (d : Doc) (K : List String) :
    normalizeDoc (normalizeDoc d K) K = normalizeDoc d K :=
  normalizeDoc_eq_self _ _ (fun k hk => memD_normalizeDoc d K k hk)

/-- C4: the field normalizer is idempotent —
`expected_keys (expected_keys docs K) K = expected_keys docs K` for every
document list and every expected-key list, since already-present keys are
never overwritten. -/
theorem expected_keys_idempotent (docs : List Doc) (K : List String) :
    expected_keys (expected_keys docs K) K = expected_keys docs K := by
  induction docs with
  | nil => rfl
  | cons d ds ih =>
    simp only [expected_keys, List.map_cons] at ih ⊢
    rw [normalizeDoc_idem]
    exact congrArg (List.cons _) ih

/-- C5: `expected_keys` normalizes each document in place; afterwards the
document contains every expected key, each previously absent expected key is
bound to the sentinel `"Null"`, and every previously present key keeps exactly
its previous value. -/
theorem expected_keys_spec (docs : List Doc) (K : List String) :
    expected_keys docs K = docs.map (fun d => normalizeDoc d K)
    ∧ ∀ d : Doc,
        (∀ k ∈ K, memD k (normalizeDoc d K) = true)
        ∧ (∀ k ∈ K, lookupD d k = none →
            lookupD (normalizeDoc d K) k = some "Null")
        ∧ (∀ k v, lookupD d k = some v → lookupD (normalizeDoc d K) k = some v) := by
  refine ⟨rfl, fun d => ⟨fun k hk => memD_normalizeDoc d K k hk, ?_, ?_⟩⟩
  · intro k hk hnone
    rw [lookupD_normalizeDoc, hnone]
    simp [hk]
  · intro k v hv
    rw [lookupD_normalizeDoc, hv]

/-- Witness for C5 at the spec's concrete example:
`expected_keys([{"title": "X"}], ["title", "author"])`. -/
theorem expected_keys_spec_witness :
    memD "author" (normalizeDoc [("title", "X")] ["title", "author"]) = true
    ∧ lookupD (normalizeDoc [("title", "X")] ["title", "author"]) "author"
        = some "Null"
    ∧ lookupD (normalizeDoc [("title", "X")] ["title", "author"]) "title"
        = some "X" :=
  ⟨((expected_keys_spec [[("title", "X")]] ["title", "author"]).2
      [("title", "X")]).1 "author" (by simp),
   (((expected_keys_spec [[("title", "X")]] ["title", "author"]).2
      [("title", "X")]).2).1 "author" (by simp) rfl,
   (((expected_keys_spec [[("title", "X")]] ["title", "author"]).2
      [("title", "X")]).2).2 "title" "X" rfl⟩

/-- The FlatEntity produced for one label entry: the single-pair dict
`{label: ' '.join(text of each value span)}`. -/
def flatEntity (item : LabelEntry) : Doc :=
  [(item.label, String.intercalate " " (item.value.map ValueSpan.text))]

theorem foldl_append_singleton {α β : Type} (f : α → β) (l : List α)
    (acc : List β) :
    l.foldl (fun a i => a ++ [f i]) acc = acc ++ l.map f := by
  induction l generalizing acc with
  | nil => simp
  | cons i is ih => simp [ih]

theorem extract_entities_go (data : List LabelRecord) (acc : List Doc) :
    data.foldl
      (fun entities document =>
        document.labels.foldl
          (fun entities item => entities ++ [flatEntity item]) entities)
      acc
      = acc ++ data.flatMap (fun document => document.labels.map flatEntity) := by
  induction data generalizing acc with
  | nil => simp
  | cons document rest ih =>
    simp only [List.foldl_cons, List.flatMap_cons]
    rw [foldl_append_singleton, ih, List.append_assoc]

/-- C6: the entity flattener emits exactly one single-pair FlatEntity per
label entry of each record — the entry's label mapped to the space-joined
texts of its value spans — in record order then within-record label order,
with no deduplication; a record with an empty `labels` list contributes
nothing. -/
theorem extract_entities_spec (data : List LabelRecord) :
    extract_entities data
      = data.flatMap (fun document => document.labels.map flatEntity) := by
  rw [show extract_entities data
      = data.foldl
          (fun entities document =>
            document.labels.foldl
              (fun entities item => entities ++ [flatEntity item]) entities)
          [] from rfl]
  rw [extract_entities_go, List.nil_append]

/-- Modelled from the spec: the persistence cell serializes the normalized
document list with the Python standard library (`json.dump`) and reads it
back with `json.load`; that serializer is not part of this repository, so the
persisted JSON format is modelled as the JSON value written to the file. -/
inductive Json where
  | jnull : Json
  | jbool : Bool → Json
  | jstr : String → Json
  | jarr : List Json → Json
  | jobj : List (String × Json) → Json

/-- Modelled from the spec: one NormalizedDocument is persisted as a JSON
object binding each key to its string value, in insertion order. -/
def docToJson (d : Doc) : Json :=
  Json.jobj (d.map (fun p => (p.1, Json.jstr p.2)))

/-- Modelled from the spec: the persisted file holds the JSON array of the
serialized documents, in list order. -/
def docsToJson (docs : List Doc) : Json :=
  Json.jarr (docs.map docToJson)

/-- Parse the fields of one persisted JSON object back into a document;
any non-string value is rejected. -/
def fieldsFromJson : List (String × Json) → Option Doc
  | [] => some []
  | (k, Json.jstr s) :: rest =>
    match fieldsFromJson rest with
    | some d => some ((k, s) :: d)
    | none => none
  | _ => none

/-- Parse one persisted document. -/
def docFromJson : Json → Option Doc
  | Json.jobj fields => fieldsFromJson fields
  | _ => none

/-- Parse a list of persisted documents. -/
def docsFromJsonList : List Json → Option (List Doc)
  | [] => some []
  | j :: rest =>
    match docFromJson j, docsFromJsonList rest with
    | some d, some ds => some (d :: ds)
    | _, _ => none

/-- Parse the persisted file content. -/
def docsFromJson : Json → Option (List Doc)
  | Json.jarr xs => docsFromJsonList xs
  | _ => none

theorem fieldsFromJson_roundtrip (d : Doc) :
    fieldsFromJson (d.map (fun p => (p.1, Json.jstr p.2))) = some d := by
  induction d with
  | nil => rfl
  | cons p rest ih => simp [fieldsFromJson, ih]

theorem docFromJson_roundtrip (d : Doc) : docFromJson (docToJson d) = some d := by
  simp [docFromJson, docToJson, fieldsFromJson_roundtrip]

/-- C8: serializing a document list to the persisted JSON format and parsing
it back reproduces the original list exactly — same documents at the same
positions, with the same keys bound to the same values. -/
theorem json_roundtrip (docs : List Doc) :
    docsFromJson (docsToJson docs) = some docs := by
  simp only [docsFromJson, docsToJson]
  induction docs with
  | nil => rfl
  | cons d ds ih => simp [docsFromJsonList, docFromJson_roundtrip, ih]

end AzureRag
